import Mathlib

/-!
Verification of the PibusMips32Xcache cache subsystem
(`src/pibus/pibus_mips32_xcache/source/include/pibus_mips32_xcache.h`).

Only the header of the component is available: it declares the registers
(`r_wbuf_addr`/`r_wbuf_data`/`r_wbuf_type` fifos, the `r_llsc_pending` and
`r_llsc_addr` reservation registers, the `r_pibus_rsp_ok`/`r_pibus_rsp_error`
completion flags, the snoop request registers) and the four FSM state
enumerations, together with a long behavioural comment.  The bodies of
`transition()` and `genMoore()` and the implementations of `GenericFifo` and
`GenericCache` are not part of the sources, so every definition below is
modelled from the specification text, as indicated by its doc comment.
-/

/-- Modelled from the spec: the `GenericFifo` used for the write buffer
(`generic_fifo.h` is included by the header but its implementation file is
missing).  A bounded FIFO with a fixed configured depth; a push on a full
fifo is rejected and leaves the contents unchanged, a pop returns the oldest
entry.  The item list is ordered oldest first. -/
structure GenericFifo (α : Type) where
  depth : Nat
  items : List α
deriving DecidableEq

/-- The fifo is full when it holds `depth` items. -/
def GenericFifo.full {α : Type} (f : GenericFifo α) : Bool :=
  decide (f.depth ≤ f.items.length)

/-- Push an entry: rejected (second component `false`) when full. -/
def GenericFifo.push {α : Type} (f : GenericFifo α) (e : α) :
    GenericFifo α × Bool :=
  if f.depth ≤ f.items.length then (f, false)
  else ({ f with items := f.items ++ [e] }, true)

/-- Pop the oldest entry, `none` when empty. -/
def GenericFifo.pop {α : Type} (f : GenericFifo α) : Option (α × GenericFifo α) :=
  match f.items with
  | [] => none
  | x :: xs => some (x, { f with items := xs })

/-- Repeatedly pop with explicit fuel (used to define `drain`). -/
def GenericFifo.drainFuel {α : Type} : Nat → GenericFifo α → List α
  | 0, _ => []
  | n + 1, f =>
    match f.pop with
    | none => []
    | some (x, f2) => x :: GenericFifo.drainFuel n f2

/-- Drain the fifo completely by repeated pops. -/
def GenericFifo.drain {α : Type} (f : GenericFifo α) : List α :=
  GenericFifo.drainFuel f.items.length f

/-- Push a whole list of entries in order. -/
def GenericFifo.pushList {α : Type} (f : GenericFifo α) (es : List α) :
    GenericFifo α :=
  es.foldl (fun g e => (g.push e).1) f

theorem GenericFifo.drainFuel_eq_items {α : Type} :
    ∀ (n : Nat) (f : GenericFifo α), f.items.length ≤ n →
      GenericFifo.drainFuel n f = f.items := by
  intro n
  induction n with
  | zero =>
    intro f h
    have : f.items = [] := List.length_eq_zero.mp (Nat.le_zero.mp h)
    simp [GenericFifo.drainFuel, this]
  | succ n ih =>
    intro f h
    match hf : f.items with
    | [] => simp [GenericFifo.drainFuel, GenericFifo.pop, hf]
    | x :: xs =>
      have hx : xs.length ≤ n := by
        have := h
        rw [hf] at this
        simpa using this
      have := ih { f with items := xs } hx
      simp [GenericFifo.drainFuel, GenericFifo.pop, hf, this]

theorem GenericFifo.drain_eq_items {α : Type} (f : GenericFifo α) :
    f.drain = f.items :=
  GenericFifo.drainFuel_eq_items f.items.length f (Nat.le_refl _)

theorem GenericFifo.push_ok {α : Type} (f : GenericFifo α) (e : α)
    (h : f.items.length < f.depth) :
    f.push e = ({ f with items := f.items ++ [e] }, true) := by
  simp [GenericFifo.push, Nat.not_le.mpr h]

theorem GenericFifo.pushList_items {α : Type} :
    ∀ (es : List α) (f : GenericFifo α),
      f.items.length + es.length ≤ f.depth →
      (f.pushList es).items = f.items ++ es ∧ (f.pushList es).depth = f.depth := by
  intro es
  induction es with
  | nil => intro f _; simp [GenericFifo.pushList]
  | cons e es ih =>
    intro f h
    have hlt : f.items.length < f.depth := by
      have := h
      simp [List.length_cons] at this
      omega
    have hstep : (f.push e).1 = { f with items := f.items ++ [e] } := by
      rw [GenericFifo.push_ok f e hlt]
    have hlen : ({ f with items := f.items ++ [e] } :
        GenericFifo α).items.length + es.length ≤ f.depth := by
      simp [List.length_append]
      simp [List.length_cons] at h
      omega
    have := ih { f with items := f.items ++ [e] } hlen
    simp [GenericFifo.pushList] at this ⊢
    rw [hstep]
    simpa [List.append_assoc] using this

/-- Modelled from the spec: the kind tag of a write-buffer entry,
`transaction-kind ∈ \x7bWRITE, SC\x7d` (stored in `r_wbuf_type`). -/
inductive WbKind where
  | write
  | sc
deriving DecidableEq

/-- Modelled from the spec: `WriteBufferEntry = \x7b address, data,
transaction-kind \x7d`. -/
structure WriteBufferEntry where
  address : Nat
  data : Nat
  kind : WbKind
deriving DecidableEq

/-- Modelled from the spec: the write buffer as realised in the header by the
three parallel fifos `r_wbuf_addr`, `r_wbuf_data`, `r_wbuf_type`. -/
structure WBuf where
  r_wbuf_addr : GenericFifo Nat
  r_wbuf_data : GenericFifo Nat
  r_wbuf_type : GenericFifo WbKind
deriving DecidableEq

/-- The write buffer of depth `d`, empty, as built by the constructor. -/
def WBuf.init (d : Nat) : WBuf :=
  ⟨⟨d, []⟩, ⟨d, []⟩, ⟨d, []⟩⟩

/-- Modelled from the spec: pushing a `WriteBufferEntry` pushes the three
components onto the three fifos in the same cycle; the push is refused when
the buffer is full. -/
def WBuf.push (w : WBuf) (e : WriteBufferEntry) : WBuf × Bool :=
  if w.r_wbuf_addr.depth ≤ w.r_wbuf_addr.items.length then (w, false)
  else
    (⟨(w.r_wbuf_addr.push e.address).1,
      (w.r_wbuf_data.push e.data).1,
      (w.r_wbuf_type.push e.kind).1⟩, true)

/-- Modelled from the spec: popping the oldest `WriteBufferEntry` pops the
three fifos in the same cycle. -/
def WBuf.pop (w : WBuf) : Option (WriteBufferEntry × WBuf) :=
  match w.r_wbuf_addr.pop, w.r_wbuf_data.pop, w.r_wbuf_type.pop with
  | some (a, fa), some (d, fd), some (t, ft) => some (⟨a, d, t⟩, ⟨fa, fd, ft⟩)
  | _, _, _ => none

/-- An operation on the write buffer: a push from the DCACHE FSM or a pop
from the PIBUS FSM. -/
inductive WBufOp where
  | push (e : WriteBufferEntry)
  | pop

/-- One write-buffer operation. -/
def WBuf.step (w : WBuf) : WBufOp → WBuf
  | .push e => (w.push e).1
  | .pop =>
    match w.pop with
    | none => w
    | some (_, w2) => w2

/-- A sequence of write-buffer operations. -/
def WBuf.run (w : WBuf) (ops : List WBufOp) : WBuf :=
  ops.foldl WBuf.step w

/-- The alignment invariant of the three fifos: equal depths, and the item
lists are componentwise projections of one list of `WriteBufferEntry`. -/
def WBuf.aligned (w : WBuf) : Prop :=
  w.r_wbuf_addr.depth = w.r_wbuf_data.depth ∧
  w.r_wbuf_addr.depth = w.r_wbuf_type.depth ∧
  ∃ es : List WriteBufferEntry,
    w.r_wbuf_addr.items = es.map (fun e => e.address) ∧
    w.r_wbuf_data.items = es.map (fun e => e.data) ∧
    w.r_wbuf_type.items = es.map (fun e => e.kind)

theorem WBuf.aligned_init (d : Nat) : (WBuf.init d).aligned := by
  refine ⟨rfl, rfl, [], ?_, ?_, ?_⟩ <;> simp [WBuf.init]

theorem WBuf.aligned_step (w : WBuf) (hw : w.aligned) (op : WBufOp) :
    (w.step op).aligned := by
  obtain ⟨hd1, hd2, es, ha, hb, hc⟩ := hw
  cases op with
  | push e =>
    by_cases hfull : w.r_wbuf_addr.depth ≤ w.r_wbuf_addr.items.length
    · simpa [WBuf.step, WBuf.push, hfull] using ⟨hd1, hd2, es, ha, hb, hc⟩
    · have hlen : w.r_wbuf_addr.items.length < w.r_wbuf_addr.depth :=
        Nat.not_le.mp hfull
      have hes : es.length < w.r_wbuf_addr.depth := by
        rw [ha] at hlen
        simpa using hlen
      have hlb : w.r_wbuf_data.items.length < w.r_wbuf_data.depth := by
        rw [hb, ← hd1]
        simpa using hes
      have hlc : w.r_wbuf_type.items.length < w.r_wbuf_type.depth := by
        rw [hc, ← hd2]
        simpa using hes
      have hpush : w.step (.push e) =
          ⟨(w.r_wbuf_addr.push e.address).1, (w.r_wbuf_data.push e.data).1,
            (w.r_wbuf_type.push e.kind).1⟩ := by
        simp only [WBuf.step, WBuf.push, if_neg hfull]
      refine ⟨?_, ?_, es ++ [e], ?_, ?_, ?_⟩ <;>
        rw [hpush] <;>
        simp [GenericFifo.push_ok _ _ hlen, GenericFifo.push_ok _ _ hlb,
          GenericFifo.push_ok _ _ hlc, ha, hb, hc, ← hd1, ← hd2]
  | pop =>
    match es, ha, hb, hc with
    | [], ha, hb, hc =>
      simp [WBuf.step, WBuf.pop, GenericFifo.pop, ha, hb, hc]
      exact ⟨hd1, hd2, [], ha, hb, hc⟩
    | e :: es, ha, hb, hc =>
      refine ?_
      simp [WBuf.step, WBuf.pop, GenericFifo.pop, ha, hb, hc]
      exact ⟨hd1, hd2, es, rfl, rfl, rfl⟩

theorem WBuf.aligned_run (w : WBuf) (hw : w.aligned) (ops : List WBufOp) :
    (w.run ops).aligned := by
  induction ops generalizing w with
  | nil => simpa [WBuf.run] using hw
  | cons op ops ih =>
    have h1 : (w.step op).aligned := WBuf.aligned_step w hw op
    simpa [WBuf.run] using ih (w.step op) h1

/-- Drain the write buffer with explicit fuel. -/
def WBuf.drainFuel : Nat → WBuf → List WriteBufferEntry
  | 0, _ => []
  | n + 1, w =>
    match w.pop with
    | none => []
    | some (e, w2) => e :: WBuf.drainFuel n w2

/-- Drain the write buffer completely by repeated pops (the PIBUS FSM drains
one entry per write transaction). -/
def WBuf.drain (w : WBuf) : List WriteBufferEntry :=
  WBuf.drainFuel w.r_wbuf_addr.items.length w

/-- Push a list of entries in order. -/
def WBuf.pushList (w : WBuf) (es : List WriteBufferEntry) : WBuf :=
  es.foldl (fun g e => (g.push e).1) w

/-- The write buffer of depth `d` holding exactly the entries `es`
(componentwise over the three fifos). -/
def wbufOfList (d : Nat) (es : List WriteBufferEntry) : WBuf :=
  ⟨⟨d, es.map (fun e => e.address)⟩,
   ⟨d, es.map (fun e => e.data)⟩,
   ⟨d, es.map (fun e => e.kind)⟩⟩

theorem wbufOfList_nil (d : Nat) : wbufOfList d [] = WBuf.init d := by
  simp [wbufOfList, WBuf.init]

theorem WBuf.drainFuel_ofList (d : Nat) :
    ∀ es : List WriteBufferEntry,
      WBuf.drainFuel es.length (wbufOfList d es) = es := by
  intro es
  induction es with
  | nil => simp [WBuf.drainFuel]
  | cons e es ih =>
    have hpop : (wbufOfList d (e :: es)).pop = some (e, wbufOfList d es) := by
      simp [wbufOfList, WBuf.pop, GenericFifo.pop]
    simp [WBuf.drainFuel, hpop, ih]

theorem WBuf.drain_ofList (d : Nat) (es : List WriteBufferEntry) :
    (wbufOfList d es).drain = es := by
  have : (wbufOfList d es).r_wbuf_addr.items.length = es.length := by
    simp [wbufOfList]
  rw [WBuf.drain, this, WBuf.drainFuel_ofList]

theorem WBuf.push_ofList (d : Nat) (es : List WriteBufferEntry)
    (e : WriteBufferEntry) (h : es.length < d) :
    (wbufOfList d es).push e = (wbufOfList d (es ++ [e]), true) := by
  have hne : ¬ d ≤ (es.map (fun e => e.address)).length := by
    simpa using Nat.not_le.mpr h
  have h1 : (es.map (fun e => e.address)).length < d := by simpa using h
  have h2 : (es.map (fun e => e.data)).length < d := by simpa using h
  have h3 : (es.map (fun e => e.kind)).length < d := by simpa using h
  simp only [wbufOfList, WBuf.push, hne, if_false]
  rw [GenericFifo.push_ok _ _ h1, GenericFifo.push_ok _ _ h2,
    GenericFifo.push_ok _ _ h3]
  simp

theorem WBuf.pushList_ofList (d : Nat) :
    ∀ (es es0 : List WriteBufferEntry), es0.length + es.length ≤ d →
      (wbufOfList d es0).pushList es = wbufOfList d (es0 ++ es) := by
  intro es
  induction es with
  | nil => intro es0 _; simp [WBuf.pushList]
  | cons e es ih =>
    intro es0 h
    have hlt : es0.length < d := by
      simp [List.length_cons] at h
      omega
    have hstep := WBuf.push_ofList d es0 e hlt
    have hlen : (es0 ++ [e]).length + es.length ≤ d := by
      simp [List.length_append]
      simp [List.length_cons] at h
      omega
    have := ih (es0 ++ [e]) hlen
    simp only [WBuf.pushList] at this ⊢
    simp only [List.foldl_cons, hstep]
    simpa [List.append_assoc] using this

/-- C3: the Write Buffer is a strict FIFO: pushing the entries E1, E2, E3 and
then draining it yields exactly E1, E2, E3 in that order; and a push onto a
full buffer is rejected (returns full) while leaving the contents unchanged
(no entry dequeued or overwritten). -/
theorem C3_write_buffer_strict_fifo (d : Nat) (hd : 3 ≤ d)
    (e1 e2 e3 : WriteBufferEntry) :
    ((WBuf.init d).pushList [e1, e2, e3]).drain = [e1, e2, e3] ∧
    (∀ (w : WBuf) (e : WriteBufferEntry),
      w.r_wbuf_addr.depth ≤ w.r_wbuf_addr.items.length →
        w.push e = (w, false)) := by
  constructor
  · have h0 : ([] : List WriteBufferEntry).length + ([e1, e2, e3] : List WriteBufferEntry).length ≤ d := by
      simpa using hd
    have h1 := WBuf.pushList_ofList d [e1, e2, e3] [] h0
    rw [wbufOfList_nil] at h1
    rw [h1]
    simpa using WBuf.drain_ofList d [e1, e2, e3]
  · intro w e h
    simp [WBuf.push, h]

/-- Witness for C3 at depth 3 and concrete entries. -/
theorem C3_write_buffer_strict_fifo_witness :
    ((WBuf.init 3).pushList
      [⟨1, 10, WbKind.write⟩, ⟨2, 20, WbKind.write⟩, ⟨3, 30, WbKind.sc⟩]).drain
        = [⟨1, 10, WbKind.write⟩, ⟨2, 20, WbKind.write⟩, ⟨3, 30, WbKind.sc⟩] :=
  (C3_write_buffer_strict_fifo 3 (by decide)
    ⟨1, 10, WbKind.write⟩ ⟨2, 20, WbKind.write⟩ ⟨3, 30, WbKind.sc⟩).1

/-- C9: the write buffer is realised as three parallel fifos `r_wbuf_addr`,
`r_wbuf_data`, `r_wbuf_type`; after any sequence of operations from the
initial (empty) buffer the three fifos hold the same number of entries, and
the i-th entries together form one `WriteBufferEntry` (there is a single
entry list of which the three item lists are the componentwise
projections). -/
theorem C9_wbuf_three_fifos_aligned (d : Nat) (ops : List WBufOp) :
    ∃ es : List WriteBufferEntry,
      ((WBuf.init d).run ops).r_wbuf_addr.items = es.map (fun e => e.address) ∧
      ((WBuf.init d).run ops).r_wbuf_data.items = es.map (fun e => e.data) ∧
      ((WBuf.init d).run ops).r_wbuf_type.items = es.map (fun e => e.kind) ∧
      ((WBuf.init d).run ops).r_wbuf_addr.items.length =
        ((WBuf.init d).run ops).r_wbuf_data.items.length ∧
      ((WBuf.init d).run ops).r_wbuf_addr.items.length =
        ((WBuf.init d).run ops).r_wbuf_type.items.length := by
  obtain ⟨-, -, es, ha, hb, hc⟩ :=
    WBuf.aligned_run (WBuf.init d) (WBuf.aligned_init d) ops
  exact ⟨es, ha, hb, hc, by rw [ha, hb]; simp, by rw [ha, hc]; simp⟩

/-- Modelled from the spec: the pseudo-LRU replacement state of one cache set
of the `GenericCache` (`generic_cache.h` is included by the header but its
implementation file is missing).  A binary-tree bit pattern over `2 ^ h`
ways: each internal bit picks the half of the ways not recently touched
(`true` means the left half was touched last, so the victim is on the
right). -/
inductive PLru : Nat → Type where
  | leaf : PLru 0
  | node {h : Nat} : Bool → PLru h → PLru h → PLru (h + 1)
deriving DecidableEq

/-- The all-false pseudo-LRU tree the cache starts from. -/
def PLru.start : (h : Nat) → PLru h
  | 0 => .leaf
  | h + 1 => .node false (PLru.start h) (PLru.start h)

/-- Modelled from the spec: the pseudo-LRU bit pattern is updated on every
access (hit or fill) so that every internal bit on the path to the touched
way points to the other half. -/
def PLru.touch : {h : Nat} → PLru h → Nat → PLru h
  | 0, t, _ => t
  | h + 1, .node _ l r, w =>
    if w < 2 ^ h then .node true (l.touch w) r
    else .node false l (r.touch (w - 2 ^ h))

/-- Modelled from the spec: `select_victim` follows the pseudo-LRU bits to
the recently-untouched half at each level. -/
def PLru.victim : {h : Nat} → PLru h → Nat
  | 0, .leaf => 0
  | h + 1, .node b l r =>
    if b then 2 ^ h + r.victim else l.victim

theorem PLru.victim_lt : ∀ {h : Nat} (t : PLru h), t.victim < 2 ^ h
  | 0, .leaf => by simp [PLru.victim]
  | h + 1, .node b l r => by
    have ihl := PLru.victim_lt l
    have ihr := PLru.victim_lt r
    have hpow : (2 : Nat) ^ (h + 1) = 2 ^ h * 2 := pow_succ 2 h
    cases b <;> simp [PLru.victim] <;> omega

theorem PLru.victim_touch_ne {h : Nat} (t : PLru h) (w : Nat)
    (hh : 1 ≤ h) (hw : w < 2 ^ h) : (t.touch w).victim ≠ w := by
  match h, t with
  | h2 + 1, .node b l r =>
    by_cases hcase : w < 2 ^ h2
    · have : (PLru.node b l r).touch w = PLru.node true (l.touch w) r := by
        simp [PLru.touch, hcase]
      rw [this]
      have : (PLru.node true (l.touch w) r).victim = 2 ^ h2 + r.victim := by
        simp [PLru.victim]
      rw [this]
      omega
    · have : (PLru.node b l r).touch w =
          PLru.node false l (r.touch (w - 2 ^ h2)) := by
        simp [PLru.touch, hcase]
      rw [this]
      have hv : (PLru.node false l (r.touch (w - 2 ^ h2))).victim = l.victim := by
        simp [PLru.victim]
      rw [hv]
      have := PLru.victim_lt l
      omega

/-- Touch ways `k`, `k + 1`, ..., `k + n - 1` in order. -/
def PLru.touchRun {h : Nat} (t : PLru h) (k : Nat) : Nat → PLru h
  | 0 => t
  | n + 1 => PLru.touchRun (t.touch k) (k + 1) n

theorem PLru.touchRun_last {h : Nat} :
    ∀ (n : Nat) (t : PLru h) (k : Nat), 1 ≤ n →
      ∃ t0 : PLru h, PLru.touchRun t k n = t0.touch (k + n - 1) := by
  intro n
  induction n with
  | zero => intro t k hn; omega
  | succ n ih =>
    intro t k _
    match n with
    | 0 => exact ⟨t, by simp [PLru.touchRun]⟩
    | m + 1 =>
      obtain ⟨t0, h0⟩ := ih (t.touch k) (k + 1) (by omega)
      refine ⟨t0, ?_⟩
      have : PLru.touchRun t k (m + 1 + 1) =
          PLru.touchRun (t.touch k) (k + 1) (m + 1) := rfl
      rw [this, h0]
      congr 1
      omega

/-- First index of the way list satisfying a predicate, scanning ways in
order (used for the hit test and for the invalid-way search). -/
def scanIdx (p : Option Nat → Bool) : List (Option Nat) → Option Nat
  | [] => none
  | x :: xs => if p x then some 0 else (scanIdx p xs).map (fun i => i + 1)

/-- Modelled from the spec: one set of the set-associative `GenericCache`:
an ordered list of `2 ^ h` ways, each way either invalid (`none`) or a valid
line carrying its tag, plus the pseudo-LRU state.  Word arrays are elided:
the claims under verification only concern validity, tags and replacement. -/
structure CacheSet (h : Nat) where
  lines : List (Option Nat)
  lru : PLru h
deriving DecidableEq

/-- The empty (zeroed, invalid) cache set built at construction. -/
def CacheSet.start (h : Nat) : CacheSet h :=
  ⟨List.replicate (2 ^ h) none, PLru.start h⟩

/-- Modelled from the spec: the hit test of `lookup` — scan all ways of the
set for a valid line whose tag matches. -/
def CacheSet.hitWay {h : Nat} (s : CacheSet h) (tag : Nat) : Option Nat :=
  scanIdx (fun ln => ln == some tag) s.lines

/-- Result of one cacheable access to a set. -/
inductive AccessResult where
  | hit (way : Nat)
  | fill (way : Nat)
  | evict (way : Nat)
deriving DecidableEq

/-- Modelled from the spec: one cacheable access to a set.  On hit the
pseudo-LRU state is updated.  On miss the refill selects an invalid way when
one exists (no eviction), otherwise it evicts the way designated by
`select_victim`; in both cases the line is overwritten with the new tag and
the pseudo-LRU state marks the filled way as most recently used. -/
def CacheSet.access {h : Nat} (s : CacheSet h) (tag : Nat) :
    CacheSet h × AccessResult :=
  match s.hitWay tag with
  | some w => (⟨s.lines, s.lru.touch w⟩, .hit w)
  | none =>
    match scanIdx (fun ln => ln == none) s.lines with
    | some w => (⟨s.lines.set w (some tag), s.lru.touch w⟩, .fill w)
    | none =>
      (⟨s.lines.set s.lru.victim (some tag), s.lru.touch s.lru.victim⟩,
       .evict s.lru.victim)

/-- A sequence of cacheable accesses to the same set. -/
def CacheSet.accessRun {h : Nat} (s : CacheSet h) :
    List Nat → CacheSet h × List AccessResult
  | [] => (s, [])
  | t :: ts =>
    let p := s.access t
    let q := p.1.accessRun ts
    (q.1, p.2 :: q.2)

theorem scanIdx_append_of_none (p : Option Nat → Bool) :
    ∀ (l1 l2 : List (Option Nat)), scanIdx p l1 = none →
      scanIdx p (l1 ++ l2) = (scanIdx p l2).map (fun i => i + l1.length) := by
  intro l1
  induction l1 with
  | nil =>
    intro l2 _
    cases h : scanIdx p l2 <;> simp [h]
  | cons x xs ih =>
    intro l2 h1
    have hpx : p x = false := by
      cases hx : p x
      · rfl
      · simp [scanIdx, hx] at h1
    have hxs : scanIdx p xs = none := by
      simp [scanIdx, hpx] at h1
      exact h1
    have hr := ih l2 hxs
    cases h2 : scanIdx p l2 <;>
      simp [scanIdx, hpx, hr, h2, Nat.add_assoc]

theorem scanIdx_replicate_no_tag (t m : Nat) :
    scanIdx (fun ln => ln == some t) (List.replicate m none) = none := by
  induction m with
  | zero => simp [scanIdx]
  | succ m ih => simp [List.replicate_succ, scanIdx, ih]

theorem scanIdx_map_some_not_mem (t : Nat) :
    ∀ fills : List Nat, t ∉ fills →
      scanIdx (fun ln => ln == some t) (fills.map some) = none := by
  intro fills
  induction fills with
  | nil => intro _; simp [scanIdx]
  | cons f fs ih =>
    intro h
    have h1 : t ≠ f := by
      intro hc
      exact h (by simp [hc])
    have h2 : t ∉ fs := fun hc => h (by simp [hc])
    have : ((some f : Option Nat) == some t) = false := by
      simp
      exact fun hc => h1 hc.symm
    simp [scanIdx, this, ih h2]

theorem scanIdx_map_some_no_invalid :
    ∀ fills : List Nat,
      scanIdx (fun ln => ln == none) (fills.map some) = none := by
  intro fills
  induction fills with
  | nil => simp [scanIdx]
  | cons f fs ih => simp [scanIdx, ih]

theorem scanIdx_replicate_invalid (m : Nat) :
    scanIdx (fun ln => ln == none) (List.replicate (m + 1) none) = some 0 := by
  simp [List.replicate_succ, scanIdx]

theorem set_at_first_invalid (t : Nat) :
    ∀ (fills : List Nat) (m : Nat),
      ((fills.map some) ++ List.replicate (m + 1) (none : Option Nat)).set
          fills.length (some t)
        = ((fills ++ [t]).map some) ++ List.replicate m none := by
  intro fills
  induction fills with
  | nil => intro m; simp [List.replicate_succ]
  | cons f fs ih =>
    intro m
    have hstep := ih m
    simp only [List.length_map] at hstep
    simp [List.set_cons_succ, hstep]

theorem CacheSet.accessRun_fresh {h : Nat} :
    ∀ (ts fills : List Nat) (lru : PLru h),
      (∀ t ∈ ts, t ∉ fills) → ts.Nodup →
      fills.length + ts.length ≤ 2 ^ h →
      CacheSet.accessRun
          ⟨fills.map some ++ List.replicate (2 ^ h - fills.length) none, lru⟩
          ts =
        (⟨(fills ++ ts).map some ++
            List.replicate (2 ^ h - (fills.length + ts.length)) none,
          PLru.touchRun lru fills.length ts.length⟩,
         (List.range ts.length).map
           (fun i => AccessResult.fill (fills.length + i))) := by
  intro ts
  induction ts with
  | nil =>
    intro fills lru _ _ _
    simp [CacheSet.accessRun, PLru.touchRun]
  | cons t ts ih =>
    intro fills lru hdisj hnd hlen
    have htf : t ∉ fills := hdisj t (by simp)
    have hlen2 : fills.length + (ts.length + 1) ≤ 2 ^ h := by
      simpa using hlen
    have hflt : fills.length < 2 ^ h := by omega
    obtain ⟨m, hm⟩ : ∃ m, 2 ^ h - fills.length = m + 1 :=
      ⟨2 ^ h - fills.length - 1, by omega⟩
    have h1 : (⟨fills.map some ++ List.replicate (m + 1) none, lru⟩ :
        CacheSet h).hitWay t = none := by
      unfold CacheSet.hitWay
      rw [scanIdx_append_of_none _ _ _ (scanIdx_map_some_not_mem t fills htf),
        scanIdx_replicate_no_tag]
      rfl
    have h2 : scanIdx (fun ln => ln == none)
        (fills.map some ++ List.replicate (m + 1) none) = some fills.length := by
      rw [scanIdx_append_of_none _ _ _ (scanIdx_map_some_no_invalid fills),
        scanIdx_replicate_invalid]
      simp
    have haccess : CacheSet.access
        (⟨fills.map some ++ List.replicate (m + 1) none, lru⟩ : CacheSet h) t =
        (⟨(fills ++ [t]).map some ++ List.replicate m none,
          lru.touch fills.length⟩,
         AccessResult.fill fills.length) := by
      simp [CacheSet.access, h1, h2, set_at_first_invalid t fills m]
    have hnt : t ∉ ts := (List.nodup_cons.mp hnd).1
    have hnd' : ts.Nodup := (List.nodup_cons.mp hnd).2
    have hdisj' : ∀ u ∈ ts, u ∉ fills ++ [t] := by
      intro u hu
      simp only [List.mem_append, List.mem_singleton]
      push_neg
      exact ⟨hdisj u (List.mem_cons_of_mem t hu), fun hc => hnt (hc ▸ hu)⟩
    have hlen' : (fills ++ [t]).length + ts.length ≤ 2 ^ h := by
      simp
      omega
    have hrun := ih (fills ++ [t]) (lru.touch fills.length) hdisj' hnd' hlen'
    simp only [List.length_append, List.length_cons, List.length_nil,
      Nat.zero_add] at hrun
    have hm' : 2 ^ h - (fills.length + 1) = m := by omega
    rw [hm'] at hrun
    have harith2 : fills.length + 1 + ts.length =
        fills.length + (ts.length + 1) := by omega
    have hfun : (fun i => AccessResult.fill (fills.length + 1 + i)) =
        (fun i => AccessResult.fill (fills.length + (i + 1))) := by
      funext i
      congr 1
      omega
    show CacheSet.accessRun _ (t :: ts) = _
    rw [hm]
    simp only [CacheSet.accessRun]
    rw [haccess]
    simp only []
    rw [hrun, harith2]
    simp [PLru.touchRun, List.range_succ_eq_map, List.map_map, Function.comp,
      List.append_assoc, hfun, Nat.succ_eq_add_one]

theorem CacheSet.accessRun_append {h : Nat} :
    ∀ (l1 l2 : List Nat) (s : CacheSet h),
      s.accessRun (l1 ++ l2) =
        (((s.accessRun l1).1.accessRun l2).1,
         (s.accessRun l1).2 ++ ((s.accessRun l1).1.accessRun l2).2) := by
  intro l1
  induction l1 with
  | nil => intro l2 s; simp [CacheSet.accessRun]
  | cons t ts ih =>
    intro l2 s
    simp only [List.cons_append, CacheSet.accessRun, List.append_eq]
    rw [ih l2 (s.access t).1]

/-- C6, counterexample to the claim as stated: the claim quantifies over
every legal geometry, and 1 way (a power of two no larger than 8) is legal.
With a single way the second distinct-tag access evicts way 0, which is
exactly the line touched most recently by the first (and only prior)
access, contradicting the claim that the victim is never the most recently
touched line. -/
theorem C6_plru_one_way_counterexample :
    ((CacheSet.start 0).accessRun [0, 1]).2 =
      [AccessResult.fill 0, AccessResult.evict 0] := by decide

/-- C6 (amended): for every cache geometry with at least two ways
(`2 ^ h` ways, `1 ≤ h`), a sequence of distinct-tag accesses of length at
most the number of ways, starting from the empty set, never evicts any
line; and on a sequence of `2 ^ h + 1` distinct tags the first `2 ^ h`
accesses fill ways 0, 1, ..., in order and the last access evicts the
pseudo-LRU-selected victim, which is in range and is never the way
`2 ^ h - 1` touched by the most recent prior access. -/
theorem C6_plru_no_premature_eviction (h : Nat) (hh : 1 ≤ h) :
    (∀ ts : List Nat, ts.Nodup → ts.length ≤ 2 ^ h →
      ∀ r ∈ ((CacheSet.start h).accessRun ts).2,
        ∀ w : Nat, r ≠ AccessResult.evict w) ∧
    (∀ ts : List Nat, ts.Nodup → ts.length = 2 ^ h + 1 →
      ∃ w : Nat, ((CacheSet.start h).accessRun ts).2 =
          (List.range (2 ^ h)).map AccessResult.fill ++ [AccessResult.evict w] ∧
          w < 2 ^ h ∧ w ≠ 2 ^ h - 1) := by
  have hstart : ∀ lru : PLru h, (⟨(([] : List Nat)).map some ++
      List.replicate (2 ^ h - ([] : List Nat).length) none, lru⟩ : CacheSet h) =
      ⟨List.replicate (2 ^ h) none, lru⟩ := by
    intro lru
    simp
  constructor
  · intro ts hnd hlen r hr w
    have hrun := CacheSet.accessRun_fresh ts [] (PLru.start h)
      (by simp) hnd (by simpa using hlen)
    rw [hstart] at hrun
    have hres : ((CacheSet.start h).accessRun ts).2 =
        (List.range ts.length).map AccessResult.fill := by
      rw [CacheSet.start, hrun]
      simp
    rw [hres] at hr
    obtain ⟨i, _, hi⟩ := List.mem_map.mp hr
    intro hc
    rw [hc] at hi
    exact AccessResult.noConfusion hi
  · intro ts hnd hlen
    have hne : ts ≠ [] := by
      intro hc
      rw [hc] at hlen
      simp only [List.length_nil] at hlen
      have hp : (1 : Nat) ≤ 2 ^ h := Nat.one_le_two_pow
      omega
    obtain ⟨ts0, t, hts⟩ : ∃ (ts0 : List Nat) (t : Nat), ts = ts0 ++ [t] :=
      ⟨ts.dropLast, ts.getLast hne, (List.dropLast_append_getLast hne).symm⟩
    subst hts
    have hnd0 : ts0.Nodup := (List.nodup_append.mp hnd).1
    have hnt : t ∉ ts0 := by
      have hdisj := (List.nodup_append.mp hnd).2.2
      intro hc
      exact hdisj hc (by simp)
    have hlen0 : ts0.length = 2 ^ h := by
      have h1 : ts0.length + 1 = 2 ^ h + 1 := by simpa using hlen
      omega
    have hrun := CacheSet.accessRun_fresh ts0 [] (PLru.start h)
      (by simp) hnd0 (by simp [hlen0])
    rw [hstart] at hrun
    rw [hlen0] at hrun
    simp only [List.length_nil, Nat.zero_add, List.nil_append, Nat.sub_self,
      List.replicate_zero, List.append_nil] at hrun
    obtain ⟨lru0, hlru0⟩ : ∃ lru0 : PLru h,
        PLru.touchRun (PLru.start h) 0 (2 ^ h) = lru0.touch (2 ^ h - 1) := by
      have := PLru.touchRun_last (2 ^ h) (PLru.start h) 0 Nat.one_le_two_pow
      simpa using this
    have hinv : scanIdx (fun ln => ln == none) (ts0.map some) = none :=
      scanIdx_map_some_no_invalid ts0
    have haccess : ∀ lru : PLru h,
        CacheSet.access (⟨ts0.map some, lru⟩ : CacheSet h) t =
          (⟨(ts0.map some).set lru.victim (some t), lru.touch lru.victim⟩,
           AccessResult.evict lru.victim) := by
      intro lru
      simp [CacheSet.access, CacheSet.hitWay,
        scanIdx_map_some_not_mem t ts0 hnt, hinv]
    refine ⟨((PLru.start h).touchRun 0 (2 ^ h)).victim, ?_,
      PLru.victim_lt _, ?_⟩
    · rw [CacheSet.start, CacheSet.accessRun_append ts0 [t], hrun]
      simp only [CacheSet.accessRun, haccess]
    · rw [hlru0]
      refine PLru.victim_touch_ne lru0 (2 ^ h - 1) hh ?_
      have hp : (1 : Nat) ≤ 2 ^ h := Nat.one_le_two_pow
      omega

/-- Witness for C6 (amended) at 2 ways and the concrete tags 3, 5, 9. -/
theorem C6_plru_no_premature_eviction_witness :
    ∃ w : Nat, ((CacheSet.start 1).accessRun [3, 5, 9]).2 =
        (List.range (2 ^ 1)).map AccessResult.fill ++ [AccessResult.evict w] ∧
        w < 2 ^ 1 ∧ w ≠ 2 ^ 1 - 1 :=
  (C6_plru_no_premature_eviction 1 (by decide)).2 [3, 5, 9] (by decide)
    (by decide)

/-- Modelled from the spec: the LL/SC reservation held in the
`r_llsc_pending` and `r_llsc_addr` registers declared in the header. -/
structure LlscReservation where
  pending : Bool
  address : Nat
deriving DecidableEq

/-- Outcome of an SC data request as seen by the processor. -/
inductive ScResult where
  | ok
  | ko
  | retry
deriving DecidableEq

/-- Modelled from the spec: the DCACHE FSM handling of an SC data request
(the body of `transition()` is not under the sources).  The SC succeeds iff
`r_llsc_pending` is set and `r_llsc_addr` equals the request address; on
success the reservation is cleared and a `WriteBufferEntry` of kind SC is
enqueued, unless the write buffer is full, in which case the request is
refused exactly like a write (state `DCACHE_SC_WAIT`); on failure the
request completes immediately with a failure result and no bus traffic. -/
def scRequest (res : LlscReservation) (wbuf : WBuf) (addr wdata : Nat) :
    ScResult × LlscReservation × WBuf :=
  if res.pending = true ∧ res.address = addr then
    let p := wbuf.push ⟨addr, wdata, WbKind.sc⟩
    if p.2 then (ScResult.ok, ⟨false, res.address⟩, p.1)
    else (ScResult.retry, res, wbuf)
  else (ScResult.ko, res, wbuf)

/-- C2: for every SC data request with address A, given room in the write
buffer: the SC succeeds iff the reservation is pending and records A; on
success the pending flag is cleared and an entry of kind SC is enqueued
onto the write buffer; on failure the request completes immediately with a
failure result, and no bus transaction is issued (the reservation and the
write buffer are left untouched). -/
theorem C2_sc_success_condition (res : LlscReservation) (wbuf : WBuf)
    (addr wdata : Nat)
    (hroom : wbuf.r_wbuf_addr.items.length < wbuf.r_wbuf_addr.depth) :
    ((scRequest res wbuf addr wdata).1 = ScResult.ok ↔
      res.pending = true ∧ res.address = addr) ∧
    ((scRequest res wbuf addr wdata).1 = ScResult.ok →
      (scRequest res wbuf addr wdata).2.1.pending = false ∧
      (scRequest res wbuf addr wdata).2.2 =
        (wbuf.push ⟨addr, wdata, WbKind.sc⟩).1) ∧
    ((scRequest res wbuf addr wdata).1 = ScResult.ko →
      (scRequest res wbuf addr wdata).2.1 = res ∧
      (scRequest res wbuf addr wdata).2.2 = wbuf) := by
  have hp : (wbuf.push ⟨addr, wdata, WbKind.sc⟩).2 = true := by
    simp [WBuf.push, Nat.not_le.mpr hroom]
  by_cases hcond : res.pending = true ∧ res.address = addr
  · refine ⟨?_, ?_, ?_⟩
    · simp [scRequest, hcond, hp]
    · intro _
      simp [scRequest, hcond, hp]
    · intro hko
      simp [scRequest, hcond, hp] at hko
  · refine ⟨?_, ?_, ?_⟩
    · simp [scRequest, hcond]
    · intro hok
      simp [scRequest, hcond] at hok
    · intro _
      simp [scRequest, hcond]

/-- Witness for C2 at a concrete pending reservation and an empty buffer of
depth 2. -/
theorem C2_sc_success_condition_witness :
    ((scRequest ⟨true, 8⟩ (WBuf.init 2) 8 77).1 = ScResult.ok ↔
      (true = true ∧ (8 : Nat) = 8)) ∧
    ((scRequest ⟨true, 8⟩ (WBuf.init 2) 8 77).1 = ScResult.ok →
      (scRequest ⟨true, 8⟩ (WBuf.init 2) 8 77).2.1.pending = false ∧
      (scRequest ⟨true, 8⟩ (WBuf.init 2) 8 77).2.2 =
        ((WBuf.init 2).push ⟨8, 77, WbKind.sc⟩).1) ∧
    ((scRequest ⟨true, 8⟩ (WBuf.init 2) 8 77).1 = ScResult.ko →
      (scRequest ⟨true, 8⟩ (WBuf.init 2) 8 77).2.1 = ⟨true, 8⟩ ∧
      (scRequest ⟨true, 8⟩ (WBuf.init 2) 8 77).2.2 = WBuf.init 2) :=
  C2_sc_success_condition ⟨true, 8⟩ (WBuf.init 2) 8 77 (by decide)

/-- An external bus write observed on the snoop port: address and the
address-valid / write indication. -/
structure SnoopEvent where
  address : Nat
  isWrite : Bool
deriving DecidableEq

/-- Modelled from the spec: the SNOOP FSM monitoring of the reservation
(`r_snoop_llsc_inval_req` in the header): on an external bus write whose
address equals the current reservation address, `r_llsc_pending` is
cleared, regardless of whether the address hits the data cache (the
`dcacheHit` argument is not consulted for this decision). -/
def snoopObserve (ev : SnoopEvent) (dcacheHit : Bool)
    (res : LlscReservation) : LlscReservation :=
  if ev.isWrite = true ∧ res.pending = true ∧ res.address = ev.address then
    ⟨false, res.address⟩
  else res

/-- The results of a sequence of SC requests (address, data pairs) with no
intervening LL. -/
def scRunResults (res : LlscReservation) (wbuf : WBuf) :
    List (Nat × Nat) → List ScResult
  | [] => []
  | q :: reqs =>
    let r := scRequest res wbuf q.1 q.2
    r.1 :: scRunResults r.2.1 r.2.2 reqs

theorem scRunResults_not_pending (res : LlscReservation) (hp : res.pending = false) :
    ∀ (reqs : List (Nat × Nat)) (wbuf : WBuf),
      scRunResults res wbuf reqs = reqs.map (fun _ => ScResult.ko) := by
  intro reqs
  induction reqs with
  | nil => intro wbuf; simp [scRunResults]
  | cons q reqs ih =>
    intro wbuf
    have hcond : ¬ (res.pending = true ∧ res.address = q.1) := by
      intro hc
      rw [hp] at hc
      exact Bool.false_ne_true hc.1
    simp [scRunResults, scRequest, hcond, ih]

/-- C5: whenever an external bus write is observed at the address recorded
by a pending LL/SC reservation, the pending flag is cleared regardless of
whether the address hits the data cache, and every subsequent SC (to any
address, in particular to that address) fails until a new LL is performed:
any following sequence of SC requests containing no LL returns only
failures. -/
theorem C5_snoop_clears_reservation (ev : SnoopEvent) (dcacheHit : Bool)
    (res : LlscReservation) (hw : ev.isWrite = true)
    (hpend : res.pending = true) (haddr : res.address = ev.address) :
    (snoopObserve ev dcacheHit res).pending = false ∧
    (∀ (reqs : List (Nat × Nat)) (wbuf : WBuf),
      scRunResults (snoopObserve ev dcacheHit res) wbuf reqs =
        reqs.map (fun _ => ScResult.ko)) := by
  have hobs : snoopObserve ev dcacheHit res = ⟨false, res.address⟩ := by
    simp [snoopObserve, hw, hpend, haddr]
  constructor
  · rw [hobs]
  · intro reqs wbuf
    exact scRunResults_not_pending _ (by rw [hobs]) reqs wbuf

/-- Witness for C5 at a concrete pending reservation, hit and miss alike. -/
theorem C5_snoop_clears_reservation_witness :
    (snoopObserve ⟨12, true⟩ false ⟨true, 12⟩).pending = false ∧
    (∀ (reqs : List (Nat × Nat)) (wbuf : WBuf),
      scRunResults (snoopObserve ⟨12, true⟩ false ⟨true, 12⟩) wbuf reqs =
        reqs.map (fun _ => ScResult.ko)) :=
  C5_snoop_clears_reservation ⟨12, true⟩ false ⟨true, 12⟩ rfl rfl rfl

/-- A completed bus transaction as seen by the DCACHE-side error-reporting
logic: either a data read completing or a buffered write completing, with
the bus-error outcome of that transaction. -/
inductive BusDoneEvent where
  | readDone (err : Bool)
  | writeDone (err : Bool)
deriving DecidableEq

/-- True for the completion of a buffered write transaction. -/
def BusDoneEvent.isWriteCompletion : BusDoneEvent → Bool
  | .readDone _ => false
  | .writeDone _ => true

/-- Modelled from the spec: the sticky write-error flag (the dedicated
BUS_ERROR flip-flop of the header comment) and the error report attached to
each completion.  A read completion reports its own error together with any
sticky write error in the same response and clears the sticky flag; a write
completion reports nothing (`none`) and merely accumulates its error into
the sticky flag.  Returns (new sticky flag, report). -/
def berrStep (sticky : Bool) : BusDoneEvent → Bool × Option Bool
  | .readDone e => (false, some (e || sticky))
  | .writeDone e => (sticky || e, none)

/-- Run the error-reporting logic over a trace of completions, collecting
the per-completion reports. -/
def berrRun (sticky : Bool) : List BusDoneEvent → Bool × List (Option Bool)
  | [] => (sticky, [])
  | ev :: evs =>
    let p := berrStep sticky ev
    let q := berrRun p.1 evs
    (q.1, p.2 :: q.2)

theorem berrRun_writes_only (ws : List BusDoneEvent)
    (hws : ∀ v ∈ ws, v.isWriteCompletion = true) :
    berrRun true ws = (true, ws.map (fun _ => none)) := by
  induction ws with
  | nil => simp [berrRun]
  | cons v ws ih =>
    match v with
    | .readDone e =>
      have := hws (.readDone e) (by simp)
      simp [BusDoneEvent.isWriteCompletion] at this
    | .writeDone e =>
      have hrest : ∀ u ∈ ws, u.isWriteCompletion = true := by
        intro u hu
        exact hws u (by simp [hu])
      simp [berrRun, berrStep, ih hrest]

theorem berrRun_append (l1 : List BusDoneEvent) :
    ∀ (s : Bool) (l2 : List BusDoneEvent),
      berrRun s (l1 ++ l2) =
        ((berrRun (berrRun s l1).1 l2).1,
         (berrRun s l1).2 ++ (berrRun (berrRun s l1).1 l2).2) := by
  induction l1 with
  | nil => intro s l2; simp [berrRun]
  | cons v l1 ih =>
    intro s l2
    simp only [List.cons_append, berrRun, List.append_eq]
    rw [ih]

/-- C4: bus errors on reads are precise, bus errors on buffered writes are
imprecise.  (i) A failing read reports the error in the very response that
consumes the failing transaction.  (ii) A failing buffered write reports
nothing at its own completion; through any following run of write
completions nothing is reported either; the next data-read completion
reports the error (even if that read itself succeeds on the bus), and the
sticky flag is then cleared, so a further clean read reports no error. -/
theorem C4_bus_error_reporting (s : Bool) (ws : List BusDoneEvent)
    (hws : ∀ v ∈ ws, v.isWriteCompletion = true) (e : Bool) :
    ((berrStep s (BusDoneEvent.readDone true)).2 = some true) ∧
    ((berrRun s (BusDoneEvent.writeDone true ::
        (ws ++ [BusDoneEvent.readDone e, BusDoneEvent.readDone false]))).2 =
      none :: (ws.map (fun _ => none) ++ [some true, some false])) := by
  constructor
  · simp [berrStep]
  · have hfirst : berrRun s (BusDoneEvent.writeDone true ::
        (ws ++ [BusDoneEvent.readDone e, BusDoneEvent.readDone false])) =
        ((berrRun true (ws ++ [BusDoneEvent.readDone e,
            BusDoneEvent.readDone false])).1,
         none :: (berrRun true (ws ++ [BusDoneEvent.readDone e,
            BusDoneEvent.readDone false])).2) := by
      simp [berrRun, berrStep]
    rw [hfirst]
    rw [berrRun_append ws true [BusDoneEvent.readDone e,
      BusDoneEvent.readDone false]]
    rw [berrRun_writes_only ws hws]
    simp [berrRun, berrStep]

/-- Witness for C4 with one intervening successful write completion. -/
theorem C4_bus_error_reporting_witness :
    ((berrStep false (BusDoneEvent.readDone true)).2 = some true) ∧
    ((berrRun false (BusDoneEvent.writeDone true ::
        ([BusDoneEvent.writeDone false] ++
          [BusDoneEvent.readDone false, BusDoneEvent.readDone false]))).2 =
      none :: ([BusDoneEvent.writeDone false].map (fun _ => none) ++
        [some true, some false])) :=
  C4_bus_error_reporting false [BusDoneEvent.writeDone false]
    (by intro v hv; simp at hv; simp [hv, BusDoneEvent.isWriteCompletion])
    false

/-- The DCACHE FSM states declared in the header enumeration. -/
inductive DcacheFsm where
  | idle
  | writeUpdt
  | writeReq
  | missSelect
  | missInval
  | missWait
  | missUpdt
  | uncWait
  | uncGo
  | errorState
  | inval
  | scWait
deriving DecidableEq

/-- Processor data-request kinds consumed by the DCACHE FSM. -/
inductive DReqKind where
  | load
  | store
  | ll
  | sc
  | lineInval
deriving DecidableEq

/-- A processor data request. -/
structure DReq where
  kind : DReqKind
  address : Nat
  wdata : Nat
deriving DecidableEq

/-- The processor-visible outcome of one DCACHE cycle for the pending
request. -/
inductive DRspKind where
  | served
  | retry
  | buserr
  | scOk
  | scKo
deriving DecidableEq

/-- States in which a read transaction (cacheable miss or uncached read) is
in flight and the processor is stalled. -/
def DcacheFsm.readBusy : DcacheFsm → Bool
  | .missSelect | .missInval | .missWait | .missUpdt | .uncWait | .uncGo => true
  | _ => false

/-- States in which the controller can consider a new processor request. -/
def DcacheFsm.accepting : DcacheFsm → Bool
  | .idle | .writeUpdt | .writeReq | .inval => true
  | _ => false

/-- Modelled from the spec: the processor-visible response of the DCACHE FSM
in one cycle (the body of `transition()` is not under the sources), given
the FSM state, the pending request, the cacheability bit, the cache hit
bit, the write-buffer-full bit and the LL/SC reservation.  While a read
transaction is in flight the processor is held (retry).  In the ERROR
state the read response carries the precise bus error.  In SC_WAIT the
successful SC retries the enqueue until the buffer has room.  In an
accepting state: a cacheable read hit is served the same cycle, a read
miss or uncached read stalls the processor, a write is served unless the
buffer is full, an SC checks the reservation (success needs buffer room,
failure completes immediately), and a line-invalidate is served. -/
def dcacheRespond (st : DcacheFsm) (req : DReq)
    (cacheable hit wbufFull : Bool) (res : LlscReservation) : DRspKind :=
  match st with
  | .missSelect | .missInval | .missWait | .missUpdt | .uncWait | .uncGo =>
    .retry
  | .errorState => .buserr
  | .scWait => if wbufFull then .retry else .scOk
  | .idle | .writeUpdt | .writeReq | .inval =>
    match req.kind with
    | .load => if cacheable && hit then .served else .retry
    | .ll => if cacheable && hit then .served else .retry
    | .store => if wbufFull then .retry else .served
    | .sc =>
      if res.pending && (res.address == req.address) then
        (if wbufFull then .retry else .scOk)
      else .scKo
    | .lineInval => .served

/-- A cacheable read miss or an uncached read is in progress: either one is
already in flight, or the arriving read itself misses (or is uncached) and
stalls the processor this cycle. -/
def readInProgress (st : DcacheFsm) (req : DReq) (cacheable hit : Bool) :
    Bool :=
  st.readBusy ||
    (st.accepting &&
      (req.kind == DReqKind.load || req.kind == DReqKind.ll) &&
      !(cacheable && hit))

/-- The SC at hand must issue a bus transaction: it is already waiting in
SC_WAIT, or it is an arriving SC whose reservation check succeeds. -/
def scMustIssueBus (st : DcacheFsm) (req : DReq)
    (res : LlscReservation) : Bool :=
  (st == DcacheFsm.scWait) ||
    (st.accepting && (req.kind == DReqKind.sc) && res.pending &&
      (res.address == req.address))

/-- C7, counterexample to the claim as stated: the claim demands that every
write or SC arriving while the Write Buffer is full be refused with
busy/retry; but an SC whose reservation check fails completes immediately
with an SC-failure result and no bus traffic even when the buffer is full,
so it is not refused. -/
theorem C7_busy_retry_counterexample :
    dcacheRespond DcacheFsm.idle ⟨DReqKind.sc, 0, 0⟩ true true true
        ⟨false, 0⟩ = DRspKind.scKo ∧
    DRspKind.scKo ≠ DRspKind.retry := by decide

/-- C7 (amended): the controller reports busy/retry (never an error) exactly
when a cacheable read miss or uncached read is in progress, or a write
arrives in an accepting state while the Write Buffer is full, or an SC that
must issue a bus transaction (its reservation check succeeds, or it is
already waiting in SC_WAIT) meets a full Write Buffer; a failing SC is
answered immediately even when the buffer is full. -/
theorem C7_busy_retry_amended (st : DcacheFsm) (req : DReq)
    (cacheable hit wbufFull : Bool) (res : LlscReservation) :
    dcacheRespond st req cacheable hit wbufFull res = DRspKind.retry ↔
      (readInProgress st req cacheable hit = true ∨
       (req.kind = DReqKind.store ∧ st.accepting = true ∧ wbufFull = true) ∨
       (scMustIssueBus st req res = true ∧ wbufFull = true)) := by
  obtain ⟨k, a, d⟩ := req
  cases st <;>
    first
    | (simp [dcacheRespond, readInProgress, scMustIssueBus,
        DcacheFsm.accepting, DcacheFsm.readBusy]
       done)
    | ((cases wbufFull <;>
        simp [dcacheRespond, readInProgress, scMustIssueBus,
          DcacheFsm.accepting, DcacheFsm.readBusy])
       done)
    | (cases k with
       | load =>
         cases cacheable <;> cases hit <;>
           simp [dcacheRespond, readInProgress, scMustIssueBus,
             DcacheFsm.accepting, DcacheFsm.readBusy]
       | ll =>
         cases cacheable <;> cases hit <;>
           simp [dcacheRespond, readInProgress, scMustIssueBus,
             DcacheFsm.accepting, DcacheFsm.readBusy]
       | store =>
         cases wbufFull <;>
           simp [dcacheRespond, readInProgress, scMustIssueBus,
             DcacheFsm.accepting, DcacheFsm.readBusy]
       | sc =>
         by_cases hc : (res.pending && (res.address == a)) = true <;>
           cases wbufFull <;>
           simp_all [dcacheRespond, readInProgress, scMustIssueBus,
             DcacheFsm.accepting, DcacheFsm.readBusy] <;>
           (split <;> simp_all)
       | lineInval =>
         simp [dcacheRespond, readInProgress, scMustIssueBus,
           DcacheFsm.accepting, DcacheFsm.readBusy])

/-- Modelled from the spec: the completion flags `r_pibus_rsp_ok` and
`r_pibus_rsp_error` of the PIBUS FSM, together with the busy bit of the
single outstanding-transaction slot (the body of `transition()` is not
under the sources).  Accepting a request clears both flags; completion
while busy sets exactly the flag matching the outcome (timeout maps to
error) and frees the slot; the requester clears both flags when it
consumes the response. -/
structure PibusFlags where
  busy : Bool
  r_pibus_rsp_ok : Bool
  r_pibus_rsp_error : Bool
deriving DecidableEq

/-- One cycle-level event of the PIBUS FSM affecting the completion flags. -/
inductive PibusEv where
  | start
  | complete (err : Bool)
  | consume
deriving DecidableEq

/-- Modelled from the spec: the flag transition on one event. -/
def pibusFlagStep (st : PibusFlags) : PibusEv → PibusFlags
  | .start => if st.busy then st else ⟨true, false, false⟩
  | .complete err =>
    if st.busy then
      (if err then ⟨false, st.r_pibus_rsp_ok, true⟩
       else ⟨false, true, st.r_pibus_rsp_error⟩)
    else st
  | .consume => ⟨st.busy, false, false⟩

/-- Run the flag machine over a sequence of events. -/
def pibusFlagRun (st : PibusFlags) (evs : List PibusEv) : PibusFlags :=
  evs.foldl pibusFlagStep st

/-- Inductive invariant: while busy both flags are clear, and the two flags
are never simultaneously set. -/
def PibusFlags.excl (st : PibusFlags) : Prop :=
  (st.busy = true → st.r_pibus_rsp_ok = false ∧ st.r_pibus_rsp_error = false) ∧
  ¬(st.r_pibus_rsp_ok = true ∧ st.r_pibus_rsp_error = true)

theorem pibusFlagStep_excl (st : PibusFlags) (hst : st.excl) (ev : PibusEv) :
    (pibusFlagStep st ev).excl := by
  obtain ⟨h1, h2⟩ := hst
  cases ev with
  | start =>
    by_cases hb : st.busy = true
    · simpa [pibusFlagStep, hb] using ⟨h1, h2⟩
    · simp at hb
      simp [pibusFlagStep, hb, PibusFlags.excl]
  | complete err =>
    by_cases hb : st.busy = true
    · obtain ⟨ho, he⟩ := h1 hb
      cases err <;> simp [pibusFlagStep, hb, PibusFlags.excl, ho, he]
    · simp at hb
      simpa [pibusFlagStep, hb] using ⟨h1, h2⟩
  | consume => simp [pibusFlagStep, PibusFlags.excl]

theorem pibusFlagRun_excl :
    ∀ (evs : List PibusEv) (st : PibusFlags), st.excl →
      (pibusFlagRun st evs).excl := by
  intro evs
  induction evs with
  | nil => intro st h; simpa [pibusFlagRun] using h
  | cons ev evs ih =>
    intro st h
    have := pibusFlagStep_excl st h ev
    simpa [pibusFlagRun] using ih (pibusFlagStep st ev) this

/-- C10: the two completion flags `r_pibus_rsp_ok` and `r_pibus_rsp_error`
are mutually exclusive in every state reachable from reset (both clear)
after any sequence of events: a completed transaction is reported as
exactly one of success or error, never both. -/
theorem C10_rsp_flags_mutually_exclusive (evs : List PibusEv) :
    ¬((pibusFlagRun ⟨false, false, false⟩ evs).r_pibus_rsp_ok = true ∧
      (pibusFlagRun ⟨false, false, false⟩ evs).r_pibus_rsp_error = true) :=
  (pibusFlagRun_excl evs ⟨false, false, false⟩ (by simp [PibusFlags.excl])).2

/-- Invalidate every line of a set (used by the snoop FLUSH escalation). -/
def CacheSet.flushSet {h : Nat} (s : CacheSet h) : CacheSet h :=
  { s with lines := s.lines.map (fun _ => none) }

/-- Invalidate one line (set index, way) of the data cache store. -/
def dcacheInvalLine {h : Nat} :
    List (CacheSet h) → Nat → Nat → List (CacheSet h)
  | [], _, _ => []
  | s :: rest, 0, w => { s with lines := s.lines.set w none } :: rest
  | s :: rest, si + 1, w => s :: dcacheInvalLine rest si w

/-- Modelled from the spec: the SNOOP FSM escalation state: the count of
consecutive external hits with no intervening local access, the data cache
store, and the LL/SC reservation. -/
structure SnoopCtl (h : Nat) where
  hitCount : Nat
  dcacheSets : List (CacheSet h)
  res : LlscReservation

/-- One cycle of snoop-relevant input: an external bus write hitting a
valid data-cache line (set, way), or a local access by the processor. -/
inductive SnoopIn where
  | extHit (si w : Nat)
  | localAccess
deriving DecidableEq

/-- True for an external snoop hit. -/
def SnoopIn.isExtHit : SnoopIn → Bool
  | .extHit _ _ => true
  | .localAccess => false

/-- Modelled from the spec: one step of the snoop escalation logic with
configured threshold `K`: a local access resets the run counter; an
external hit invalidates the hit line and lengthens the run, and when the
run reaches `K` the controller escalates to FLUSH, invalidating the entire
data cache store and clearing the reservation. -/
def snoopStep (K : Nat) {h : Nat} (st : SnoopCtl h) : SnoopIn → SnoopCtl h
  | .localAccess => ⟨0, st.dcacheSets, st.res⟩
  | .extHit si w =>
    if K ≤ st.hitCount + 1 then
      ⟨0, st.dcacheSets.map CacheSet.flushSet, ⟨false, st.res.address⟩⟩
    else
      ⟨st.hitCount + 1, dcacheInvalLine st.dcacheSets si w, st.res⟩

/-- Run the snoop escalation logic over a sequence of inputs. -/
def snoopRun (K : Nat) {h : Nat} (st : SnoopCtl h) (ins : List SnoopIn) :
    SnoopCtl h :=
  ins.foldl (snoopStep K) st

theorem scanIdx_no_tag_of_all_none (t : Nat) :
    ∀ l : List (Option Nat), (∀ x ∈ l, x = none) →
      scanIdx (fun ln => ln == some t) l = none := by
  intro l
  induction l with
  | nil => intro _; simp [scanIdx]
  | cons x xs ih =>
    intro hall
    have hx : x = none := hall x (by simp)
    have hxs : ∀ y ∈ xs, y = none := fun y hy => hall y (by simp [hy])
    simp [scanIdx, hx, ih hxs]

theorem snoopRun_flushes (K : Nat) {h : Nat} :
    ∀ (ins : List SnoopIn) (st : SnoopCtl h), ins ≠ [] →
      (∀ i ∈ ins, i.isExtHit = true) →
      st.hitCount + ins.length = K →
      ∃ sets0 : List (CacheSet h),
        (snoopRun K st ins).dcacheSets = sets0.map CacheSet.flushSet ∧
        (snoopRun K st ins).res.pending = false := by
  intro ins
  induction ins with
  | nil => intro st hne; exact absurd rfl hne
  | cons i ins ih =>
    intro st _ hall hcnt
    match i, hall i (by simp) with
    | .extHit si w, _ =>
      match ins, hcnt with
      | [], hcnt =>
        have hK : K ≤ st.hitCount + 1 := by
          simp at hcnt
          omega
        refine ⟨st.dcacheSets, ?_, ?_⟩ <;>
          simp [snoopRun, snoopStep, hK]
      | j :: ins2, hcnt =>
        have hK : ¬ K ≤ st.hitCount + 1 := by
          simp [List.length_cons] at hcnt
          omega
        have hall2 : ∀ u ∈ j :: ins2, SnoopIn.isExtHit u = true := by
          intro u hu
          exact hall u (by simp at hu; simp [hu])
        have hcnt2 : (st.hitCount + 1) + (j :: ins2).length = K := by
          simp [List.length_cons] at hcnt ⊢
          omega
        have hrec := ih ⟨st.hitCount + 1,
          dcacheInvalLine st.dcacheSets si w, st.res⟩ (by simp) hall2 hcnt2
        simpa [snoopRun, snoopStep, hK] using hrec

/-- C8: with configured threshold `K`, a run of `K` consecutive external
snoop hits with no intervening local access, starting from a quiescent
counter, escalates to FLUSH: afterwards every line of the entire data
cache store is invalid, every lookup reports MISS, and the LL/SC
reservation pending flag is cleared. -/
theorem C8_snoop_flush_escalation (K : Nat) (h : Nat)
    (sets : List (CacheSet h)) (res : LlscReservation) (ins : List SnoopIn)
    (hne : ins ≠ []) (hall : ∀ i ∈ ins, i.isExtHit = true)
    (hlen : ins.length = K) :
    (∀ s ∈ (snoopRun K (⟨0, sets, res⟩ : SnoopCtl h) ins).dcacheSets,
      ∀ tag : Nat, s.hitWay tag = none) ∧
    (snoopRun K (⟨0, sets, res⟩ : SnoopCtl h) ins).res.pending = false := by
  obtain ⟨sets0, hsets, hres⟩ := snoopRun_flushes K ins ⟨0, sets, res⟩ hne hall
    (by simpa using hlen)
  refine ⟨?_, hres⟩
  intro s hs tag
  rw [hsets] at hs
  obtain ⟨s1, _, hflush⟩ := List.mem_map.mp hs
  unfold CacheSet.hitWay
  refine scanIdx_no_tag_of_all_none tag s.lines ?_
  intro x hx
  rw [← hflush] at hx
  simp [CacheSet.flushSet] at hx
  exact hx.2

/-- Witness for C8 at threshold 2, one 1-way set holding tag 5 and a
pending reservation. -/
theorem C8_snoop_flush_escalation_witness :
    (snoopRun 2 (⟨0, [⟨[some 5], PLru.leaf⟩], ⟨true, 9⟩⟩ : SnoopCtl 0)
      [SnoopIn.extHit 0 0, SnoopIn.extHit 0 0]).res.pending = false :=
  (C8_snoop_flush_escalation 2 0 [⟨[some 5], PLru.leaf⟩] ⟨true, 9⟩
    [SnoopIn.extHit 0 0, SnoopIn.extHit 0 0] (by simp)
    (by intro i hi; simp at hi; simp [hi, SnoopIn.isExtHit]) rfl).2

/-- Modelled from the spec: the write-through datapath of the data cache as
far as claim C1 needs it (the body of `transition()` is not under the
sources): the backing memory behind the bus, the data cache content at
word granularity (`none` when the address is not cached), and the write
buffer of pending (address, data) write transactions. -/
structure XcacheMem where
  mem : Nat → Nat
  dcache : Nat → Option Nat
  wbuf : GenericFifo (Nat × Nat)

/-- Modelled from the spec: a processor write: the cache line is updated
only on hit (write-through: the cache copy is advisory), and the write is
unconditionally enqueued; the request is refused, leaving the state
unchanged, when the write buffer is full. -/
def XcacheMem.doWrite (s : XcacheMem) (a v : Nat) : XcacheMem :=
  let p := s.wbuf.push (a, v)
  if p.2 then
    ⟨s.mem,
     fun x => if x = a then (s.dcache x).map (fun _ => v) else s.dcache x,
     p.1⟩
  else s

/-- Modelled from the spec: the PIBUS FSM drains the write buffer to memory
strictly in FIFO order, each entry becoming a single-word bus write. -/
def XcacheMem.drainAll (s : XcacheMem) : XcacheMem :=
  ⟨s.wbuf.items.foldl (fun m p => fun x => if x = p.1 then p.2 else m x) s.mem,
   s.dcache,
   ⟨s.wbuf.depth, []⟩⟩

/-- Modelled from the spec: a cacheable processor read: on hit the cached
word is returned; on miss the line is fetched from memory and the cache is
filled. -/
def XcacheMem.doRead (s : XcacheMem) (a : Nat) : Nat × XcacheMem :=
  match s.dcache a with
  | some v => (v, s)
  | none =>
    (s.mem a,
     ⟨s.mem, fun x => if x = a then some (s.mem a) else s.dcache x, s.wbuf⟩)

/-- A back-to-back sequence of processor writes to one address. -/
def XcacheMem.writeSeq (s : XcacheMem) (a : Nat) (vs : List Nat) : XcacheMem :=
  vs.foldl (fun st v => st.doWrite a v) s

/-- The value left at an address by a sequence of writes `vs`, starting
from default `d`: the last write wins. -/
def lastWrite (vs : List Nat) (d : Nat) : Nat :=
  match vs with
  | [] => d
  | v :: vs2 => lastWrite vs2 v

theorem lastWrite_eq_getLast :
    ∀ (vs : List Nat) (hne : vs ≠ []) (d : Nat),
      lastWrite vs d = vs.getLast hne := by
  intro vs
  induction vs with
  | nil => intro hne; exact absurd rfl hne
  | cons v vs ih =>
    intro _ d
    match vs, ih with
    | [], _ => simp [lastWrite, List.getLast]
    | u :: vs2, ih =>
      rw [List.getLast_cons (by simp)]
      exact ih (by simp) v

theorem XcacheMem.writeSeq_state :
    ∀ (vs : List Nat) (s : XcacheMem) (a : Nat),
      s.wbuf.items.length + vs.length ≤ s.wbuf.depth →
      (s.writeSeq a vs).mem = s.mem ∧
      (s.writeSeq a vs).wbuf.depth = s.wbuf.depth ∧
      (s.writeSeq a vs).wbuf.items =
        s.wbuf.items ++ vs.map (fun v => (a, v)) ∧
      (s.writeSeq a vs).dcache = fun x =>
        if x = a then (s.dcache x).map (fun w => lastWrite vs w)
        else s.dcache x := by
  intro vs
  induction vs with
  | nil =>
    intro s a _
    refine ⟨rfl, rfl, by simp [XcacheMem.writeSeq], ?_⟩
    funext x
    by_cases hx : x = a <;> simp only [XcacheMem.writeSeq, List.foldl_nil, hx,
      if_true, if_false, lastWrite] <;>
      cases s.dcache x <;> simp [lastWrite]
  | cons v vs ih =>
    intro s a hcap
    have hlt : s.wbuf.items.length < s.wbuf.depth := by
      simp [List.length_cons] at hcap
      omega
    have hpush := GenericFifo.push_ok s.wbuf (a, v) hlt
    have hstep : s.doWrite a v =
        ⟨s.mem,
         fun x => if x = a then (s.dcache x).map (fun _ => v) else s.dcache x,
         ⟨s.wbuf.depth, s.wbuf.items ++ [(a, v)]⟩⟩ := by
      simp [XcacheMem.doWrite, hpush]
    have hcap2 : (s.doWrite a v).wbuf.items.length + vs.length ≤
        (s.doWrite a v).wbuf.depth := by
      rw [hstep]
      simp [List.length_append]
      simp [List.length_cons] at hcap
      omega
    obtain ⟨hm, hd, hw, hc⟩ := ih (s.doWrite a v) a hcap2
    have hfold : s.writeSeq a (v :: vs) = (s.doWrite a v).writeSeq a vs := by
      simp [XcacheMem.writeSeq]
    refine ⟨?_, ?_, ?_, ?_⟩
    · rw [hfold, hm, hstep]
    · rw [hfold, hd, hstep]
    · rw [hfold, hw, hstep]
      simp [List.append_assoc]
    · rw [hfold, hc, hstep]
      funext x
      by_cases hx : x = a
      · simp only [hx, if_true, Option.map_map]
        cases s.dcache a <;> simp [Function.comp, lastWrite]
      · simp only [hx, if_false]

theorem foldUpd_map_lastWrite (a : Nat) :
    ∀ (vs : List Nat) (m : Nat → Nat),
      ((vs.map (fun v => (a, v))).foldl
        (fun acc p => fun x => if x = p.1 then p.2 else acc x) m) a =
        lastWrite vs (m a) := by
  intro vs
  induction vs with
  | nil => intro m; simp [lastWrite]
  | cons v vs ih =>
    intro m
    have hrec := ih (fun x => if x = a then v else m x)
    simp only [List.map_cons, List.foldl_cons] at hrec ⊢
    rw [hrec]
    simp [lastWrite]

/-- C1: for every back-to-back sequence of writes to the same address with
no intervening read, once the write buffer has drained (write-through plus
strict FIFO drain order), a subsequent cacheable data read of that address
returns the value of the most recently completed write — on the cache-hit
path because every write updated the hit line in place, and on the miss
path because the entries drained to memory in push order, the last write
last. -/
theorem C1_write_through_fifo_read_latest (s : XcacheMem) (a : Nat)
    (vs : List Nat) (hvs : vs ≠ [])
    (hcap : s.wbuf.items.length + vs.length ≤ s.wbuf.depth) :
    (((s.writeSeq a vs).drainAll).doRead a).1 = vs.getLast hvs := by
  obtain ⟨hm, hd, hw, hc⟩ := XcacheMem.writeSeq_state vs s a hcap
  have hdc : ((s.writeSeq a vs).drainAll).dcache a =
      (s.dcache a).map (fun w => lastWrite vs w) := by
    show (s.writeSeq a vs).dcache a = _
    rw [hc]
    simp
  cases hcase : s.dcache a with
  | some w =>
    have hsome : ((s.writeSeq a vs).drainAll).dcache a =
        some (lastWrite vs w) := by
      rw [hdc, hcase]
      rfl
    rw [XcacheMem.doRead, hsome]
    exact lastWrite_eq_getLast vs hvs w
  | none =>
    have hnone : ((s.writeSeq a vs).drainAll).dcache a = none := by
      rw [hdc, hcase]
      rfl
    rw [XcacheMem.doRead, hnone]
    show ((s.writeSeq a vs).drainAll).mem a = _
    show ((s.writeSeq a vs).wbuf.items.foldl
      (fun m p => fun x => if x = p.1 then p.2 else m x)
      (s.writeSeq a vs).mem) a = _
    rw [hw, hm, List.foldl_append, foldUpd_map_lastWrite]
    exact lastWrite_eq_getLast vs hvs _

/-- The quiescent system used as the C1 witness: zeroed memory, empty data
cache, empty write buffer of depth 4. -/
def xcacheReset : XcacheMem :=
  ⟨fun _ => 0, fun _ => none, ⟨4, []⟩⟩

/-- Witness for C1: write 5 then 7 to address 2, drain, read back 7. -/
theorem C1_write_through_fifo_read_latest_witness :
    (((xcacheReset.writeSeq 2 [5, 7]).drainAll).doRead 2).1 = 7 := by
  have h := C1_write_through_fifo_read_latest xcacheReset 2 [5, 7]
    (by simp) (by simp [xcacheReset])
  simpa using h
